import Mathlib

/-!
Verification development for CIDR-Sensei (Go), a command-line tool that
expands a comma-separated list of CIDR blocks into the list of contained
IPv4 addresses.

The definitions below are a shallow embedding of the program's current
source (the refactored program in main.go: parseCIDRList, ipToUint,
cidrToIPsBinarySearch, cidrToIPsParallel with its worker function,
getProcessFunc, processBinarySearch, processIntervalTree,
buildIntervalTree and the intervalTree type).  Machine integers (uint32,
and the 128-bit view of IPv6 addresses) are modelled as Nat with explicit
reduction modulo 2^32 exactly where Go's arithmetic can wrap.  Emitted
addresses are modelled by their numeric uint32 value; ipDotted renders
the dotted-decimal string that uint2ip(ip).String() would produce.

The standard-library collaborator net.ParseCIDR is embedded from its
documented behaviour (split at the slash, parse a dotted-decimal IPv4
address with 0-255 octets and no leading zeros, or an IPv6 literal of
colon-separated 1-4 digit hex groups with at most one double colon;
parse a decimal prefix length bounded by the address width; the returned
ip is the unmasked textual address, and the returned network carries the
masked base and the mask).  The embedded IPv6 grammar omits the
dotted-quad tail form (for example ::ffff:1.2.3.4), which the
development never evaluates.
-/

set_option maxRecDepth 20000
set_option maxHeartbeats 1000000

namespace CIDRSensei

/-- Size of the IPv4 address space: 2^32.  Go's uint32 arithmetic is
modelled as Nat arithmetic reduced modulo this constant. -/
def W : Nat := 4294967296

/-- Decimal digit test for a character. -/
def isDigitC (c : Char) : Bool := '0' ≤ c && c ≤ '9'

/-- Numeric value of a decimal digit character. -/
def digitVal (c : Char) : Nat := c.toNat - '0'.toNat

/-- Hexadecimal digit test for a character. -/
def isHexC (c : Char) : Bool :=
  isDigitC c || ('a' ≤ c && c ≤ 'f') || ('A' ≤ c && c ≤ 'F')

/-- Numeric value of a hexadecimal digit character. -/
def hexVal (c : Char) : Nat :=
  if isDigitC c then c.toNat - '0'.toNat
  else if 'a' ≤ c && c ≤ 'f' then c.toNat - 'a'.toNat + 10
  else c.toNat - 'A'.toNat + 10

/-- Split a character list at every occurrence of the separator, keeping
empty fields (the behaviour of Go's strings.Split). -/
def splitOnC (sep : Char) : List Char → List (List Char)
  | [] => [[]]
  | c :: cs =>
    if c = sep then [] :: splitOnC sep cs
    else
      match splitOnC sep cs with
      | [] => [[c]]
      | g :: gs => (c :: g) :: gs

/-- Parse a non-empty all-decimal-digit field to its value (Go's dtoi on a
field that must be consumed entirely; dtoi's overflow cutoff is subsumed
by the range checks at every use site). -/
def decVal (cs : List Char) : Option Nat :=
  if !cs.isEmpty && cs.all isDigitC then
    some (cs.foldl (fun a c => a * 10 + digitVal c) 0)
  else none

/-- Parse one IPv4 octet: decimal, at most 255, no leading zero
(Go rejects leading zeros in dotted-decimal addresses). -/
def octVal (cs : List Char) : Option Nat :=
  match decVal cs with
  | none => none
  | some v =>
    if v ≤ 255 && (cs.length == 1 || !(cs.headD '0' == '0')) then some v
    else none

/-- Parse a dotted-decimal IPv4 address to its 32-bit value. -/
def ipv4Val (cs : List Char) : Option Nat :=
  match splitOnC '.' cs with
  | [p1, p2, p3, p4] =>
    match octVal p1, octVal p2, octVal p3, octVal p4 with
    | some a, some b, some c, some d =>
      some (((a * 256 + b) * 256 + c) * 256 + d)
    | _, _, _, _ => none
  | _ => none

/-- Parse one IPv6 group: one to four hexadecimal digits. -/
def hexGroup (cs : List Char) : Option Nat :=
  if !cs.isEmpty && cs.length ≤ 4 && cs.all isHexC then
    some (cs.foldl (fun a c => a * 16 + hexVal c) 0)
  else none

/-- Split a character list at the first double colon, when present. -/
def splitDblColon : List Char → Option (List Char × List Char)
  | [] => none
  | ':' :: ':' :: rest => some ([], rest)
  | c :: rest => (splitDblColon rest).map (fun p => (c :: p.1, p.2))

/-- Parse every field of a colon-split side as a hex group. -/
def hexGroups : List (List Char) → Option (List Nat)
  | [] => some []
  | g :: gs =>
    match hexGroup g, hexGroups gs with
    | some v, some vs => some (v :: vs)
    | _, _ => none

/-- Groups of one side of an IPv6 literal; an empty side has no groups. -/
def sideGroups (cs : List Char) : Option (List Nat) :=
  if cs.isEmpty then some [] else hexGroups (splitOnC ':' cs)

/-- Combine consecutive 16-bit groups into one number. -/
def groupsVal (gs : List Nat) : Nat := gs.foldl (fun a g => a * 65536 + g) 0

/-- Parse an IPv6 literal to its 128-bit value: either eight hex groups,
or at most seven groups around a single double colon that expands with
zero groups. -/
def ipv6Val (cs : List Char) : Option Nat :=
  match splitDblColon cs with
  | some (pre, post) =>
    if (splitDblColon post).isSome then none
    else
      match sideGroups pre, sideGroups post with
      | some g1, some g2 =>
        if g1.length + g2.length ≤ 7 then
          some (groupsVal g1 * 2 ^ (16 * (8 - g1.length)) + groupsVal g2)
        else none
      | _, _ => none
  | none =>
    match sideGroups cs with
    | some gs => if gs.length == 8 then some (groupsVal gs) else none
    | none => none

/-- Model of Go's net.IP: a 4-byte address carrying a 32-bit value, or a
16-byte address carrying a 128-bit value. -/
inductive IPAddr where
  | v4 (val : Nat)
  | v6 (val : Nat)
deriving DecidableEq

/-- Model of net.IP.To4: a 4-byte address is returned as is; a 16-byte
address is converted exactly when it is IPv4-mapped (bytes 0-9 zero and
bytes 10-11 equal to 0xff, that is, value divided by 2^32 equals 0xffff). -/
def toFour : IPAddr → Option Nat
  | IPAddr.v4 v => some v
  | IPAddr.v6 v => if v / 4294967296 = 65535 then some (v % 4294967296) else none

/-- Model of net.CIDRMask n 32: n leading one bits in a 32-bit word. -/
def v4maskVal (n : Nat) : Nat := W - 2 ^ (32 - n)

/-- Model of net.CIDRMask n 128: n leading one bits in a 128-bit word. -/
def v6maskVal (n : Nat) : Nat := 2 ^ 128 - 2 ^ (128 - n)

/-- Model of net.IPNet: the masked network base and the mask, both as
net.IP values. -/
structure GoIPNet where
  netIP : IPAddr
  mask : IPAddr
deriving DecidableEq

/-- Model of net.ParseCIDR: split at the slash, parse the address and the
decimal prefix length, and return the unmasked parsed address together
with the network (masked base and mask).  The prefix length is bounded by
eight times the address byte length. -/
def netParseCIDR (s : String) : Option (IPAddr × GoIPNet) :=
  match splitOnC '/' s.data with
  | [addr, maskDigits] =>
    match decVal maskDigits with
    | none => none
    | some n =>
      if addr.contains ':' then
        match ipv6Val addr with
        | none => none
        | some v =>
          if n ≤ 128 then
            some (IPAddr.v6 v, ⟨IPAddr.v6 (v &&& v6maskVal n), IPAddr.v6 (v6maskVal n)⟩)
          else none
      else
        match ipv4Val addr with
        | none => none
        | some v =>
          if n ≤ 32 then
            some (IPAddr.v4 v, ⟨IPAddr.v4 (v &&& v4maskVal n), IPAddr.v4 (v4maskVal n)⟩)
          else none
  | _ => none

/-- Model of ipToUint (main.go): To4 followed by big-endian uint32; any
address that To4 cannot convert (for example an IPv6 address or mask)
yields 0. -/
def ipToUint (ip : IPAddr) : Nat :=
  match toFour ip with
  | none => 0
  | some v => v

/-- Model of the CIDRRange struct of the refactored program.  The Go field
named end is called stop here because end is a Lean keyword.  The length
field is uint32 there, so it is stored reduced modulo 2^32. -/
structure CIDRRange where
  ipNet : GoIPNet
  start : Nat
  stop : Nat
  length : Nat
deriving DecidableEq

instance : Inhabited CIDRRange := ⟨⟨⟨IPAddr.v4 0, IPAddr.v4 0⟩, 0, 0, 0⟩⟩

/-- Model of parseCIDRList (main.go lines 541-560): for each string,
net.ParseCIDR; on failure, return the wrapped error naming the offending
string and no ranges; on success, start is the uint32 view of the
unmasked parsed ip, stop is start bitwise-or the complement of the mask
(complement in a 32-bit word is subtraction from 2^32 - 1), and length is
stop - start + 1 in uint32 arithmetic. -/
def parseCIDRList : List String → Except String (List CIDRRange)
  | [] => Except.ok []
  | s :: rest =>
    match netParseCIDR s with
    | none => Except.error ("error parsing CIDR " ++ s ++ ": invalid CIDR address: " ++ s)
    | some (ip, ipn) =>
      let start := ipToUint ip
      let maskU := ipToUint ipn.mask
      let stop := start ||| (W - 1 - maskU)
      match parseCIDRList rest with
      | Except.error e => Except.error e
      | Except.ok rs => Except.ok (⟨ipn, start, stop, (stop - start + 1) % W⟩ :: rs)

/-- Dotted-decimal rendering of a 32-bit address value: the string that
uint2ip(ip).String() produces. -/
def ipDotted (n : Nat) : String :=
  toString (n / 16777216 % 256) ++ "." ++ toString (n / 65536 % 256) ++ "." ++
    toString (n / 256 % 256) ++ "." ++ toString (n % 256)

/-- Comparison used by every sort.Slice call in the program: order ranges
by their start field. -/
def startLE (a b : CIDRRange) : Prop := a.start ≤ b.start

instance : DecidableRel startLE := fun a b => Nat.decLe a.start b.start

instance : IsTotal CIDRRange startLE := ⟨fun a b => Nat.le_total a.start b.start⟩

instance : IsTrans CIDRRange startLE := ⟨fun _ _ _ h1 h2 => Nat.le_trans h1 h2⟩

/-- Model of sort.Slice over the start fields.  The Go sort is an
unstable comparison sort; it is modelled by insertion sort, which
produces a list sorted by start that is a permutation of the input, the
only two properties the program relies on (for the disjoint inputs of
the claims the starts are distinct, so the sorted order is unique). -/
def sortByStart (rs : List CIDRRange) : List CIDRRange := List.insertionSort startLE rs

/-- Model of the loop inside Go's sort.Search: binary search for the
boundary index, with explicit fuel; fuel at least j - i reproduces the
Go loop exactly, because the gap shrinks by at least one per iteration. -/
def searchLoop (f : Nat → Bool) : Nat → Nat → Nat → Nat
  | 0, i, _ => i
  | fuel + 1, i, j =>
    if i < j then
      if f ((i + j) / 2) then searchLoop f fuel i ((i + j) / 2)
      else searchLoop f fuel ((i + j) / 2 + 1) j
    else i

/-- Model of sort.Search n f. -/
def sortSearch (n : Nat) (f : Nat → Bool) : Nat := searchLoop f n 0 n

/-- The membership lookup of the binary-search strategy, exactly as coded
in cidrToIPsBinarySearch and processBinarySearch: sort.Search for the
first index whose range has stop at least x, then a hit exactly when
that index is in bounds and its start is at most x. -/
def bsLookup (rs : List CIDRRange) (x : Nat) : Option CIDRRange :=
  let idx := sortSearch rs.length (fun j => decide (x ≤ (rs.getD j default).stop))
  if h : idx < rs.length then
    if (rs.get ⟨idx, h⟩).start ≤ x then some (rs.get ⟨idx, h⟩) else none
  else none

/-- Per-address body of the binary-search expansion loops: emit the
address exactly when the lookup hits. -/
def seqBody (rs : List CIDRRange) (ip : Nat) : List Nat :=
  match bsLookup rs ip with
  | some _ => [ip]
  | none => []

/-- Model of the per-range address loop for ip from start while
ip is at most stop, incrementing a uint32 counter (hence the reduction
modulo 2^32).  The loop is not structurally terminating in Go, so it is
given explicit fuel: none means the fuel ran out before the loop
exited, which on the chosen fuel below happens exactly when the Go loop
never exits. -/
def expandLoop (body : Nat → List Nat) : Nat → Nat → Nat → Option (List Nat)
  | 0, _, _ => none
  | fuel + 1, ip, stop =>
    if ip ≤ stop then
      match expandLoop body fuel ((ip + 1) % W) stop with
      | none => none
      | some rest => some (body ip ++ rest)
    else some []

/-- One range's expansion.  The fuel stop - start + 2 is enough for every
terminating run of the Go loop, and when the Go loop never exits (stop
equal to 2^32 - 1) the result is none for every fuel, so the choice of
fuel does not matter there. -/
def runRange (body : Nat → List Nat) (r : CIDRRange) : Option (List Nat) :=
  expandLoop body (r.stop - r.start + 2) r.start r.stop

/-- Expansion of a list of ranges in order, concatenating the per-range
emissions; none when some range's loop never exits. -/
def seqRanges (body : Nat → List Nat) : List CIDRRange → Option (List Nat)
  | [] => some []
  | r :: rest =>
    match runRange body r, seqRanges body rest with
    | some l, some ls => some (l ++ ls)
    | _, _ => none

/-- Model of cidrToIPsBinarySearch (main.go lines 500-526): copy the
slice, sort the copy by start, then for each range in sorted order walk
every address and emit it when the binary-search lookup hits. -/
def cidrToIPsBinarySearch (rs : List CIDRRange) : Option (List Nat) :=
  seqRanges (seqBody (sortByStart rs)) (sortByStart rs)

/-- Model of the intervalNode pointer structure: an unbalanced binary
tree of intervals, each node carrying its bounds and the stored
CIDRRange value (with Go 1.22 per-iteration loop-variable semantics the
pointer stored by buildIntervalTree refers to that iteration's range
value, so the node is modelled as carrying the range by value). -/
inductive ITree where
  | nil : ITree
  | node (left : ITree) (nstart nstop : Nat) (cidr : CIDRRange) (right : ITree)

/-- Model of intervalTree.Search and intervalNode.search: descend left
when x is below the node's start, right when above its stop, otherwise
return that node's range. -/
def ITree.searchT : ITree → Nat → Option CIDRRange
  | ITree.nil, _ => none
  | ITree.node l ns ne c r, x =>
    if x < ns then l.searchT x
    else if ne < x then r.searchT x
    else some c

/-- Model of intervalTree.Insert and intervalNode.insert: attach or
descend left when the new stop is below the node's start, right when the
new start is above the node's stop, otherwise fail with the overlap
error naming both intervals. -/
def ITree.insertT : ITree → Nat → Nat → CIDRRange → Except String ITree
  | ITree.nil, s, e, c => Except.ok (ITree.node ITree.nil s e c ITree.nil)
  | ITree.node l ns ne nc r, s, e, c =>
    if e < ns then
      match l.insertT s e c with
      | Except.ok l2 => Except.ok (ITree.node l2 ns ne nc r)
      | Except.error m => Except.error m
    else if ne < s then
      match r.insertT s e c with
      | Except.ok r2 => Except.ok (ITree.node l ns ne nc r2)
      | Except.error m => Except.error m
    else
      Except.error ("overlapping intervals are not supported: [" ++ toString s ++ ", " ++
        toString e ++ "] overlaps with [" ++ toString ns ++ ", " ++ toString ne ++ "]")

/-- Intervals stored in a tree, as (start, stop, range) triples in
left-to-right order. -/
def ITree.toL : ITree → List (Nat × Nat × CIDRRange)
  | ITree.nil => []
  | ITree.node l ns ne c r => l.toL ++ (ns, ne, c) :: r.toL

/-- Search-tree invariant of the interval tree: every interval in a left
subtree ends strictly before the node's start, every interval in a right
subtree starts strictly after the node's stop, and bounds are ordered. -/
def ITree.Inv : ITree → Prop
  | ITree.nil => True
  | ITree.node l ns ne _ r =>
    ns ≤ ne ∧ l.Inv ∧ r.Inv ∧
      (∀ p ∈ l.toL, p.2.1 < ns) ∧ (∀ p ∈ r.toL, ne < p.1)

/-- Model of buildIntervalTree's loop (main.go lines 529-539): insert each
range; on an insert error the Go code only prints the message and keeps
the tree unchanged, so the printed messages are collected alongside. -/
def buildIntervalTreeGo : List CIDRRange → ITree → List String → ITree × List String
  | [], t, errs => (t, errs)
  | c :: rest, t, errs =>
    match t.insertT c.start c.stop c with
    | Except.ok t2 => buildIntervalTreeGo rest t2 errs
    | Except.error m =>
      buildIntervalTreeGo rest t
        (errs ++ ["Failed to insert CIDR range into interval tree: " ++ m])

/-- Model of buildIntervalTree: fold the ranges into an initially empty
tree, collecting the printed (and otherwise discarded) insert errors. -/
def buildIntervalTree (rs : List CIDRRange) : ITree × List String :=
  buildIntervalTreeGo rs ITree.nil []

/-- Per-address body of processIntervalTree: emit the address exactly
when the tree search returns a range. -/
def treeBody (t : ITree) (ip : Nat) : List Nat :=
  match t.searchT ip with
  | some _ => [ip]
  | none => []

/-- Emissions of cidrToIPsParallel (main.go lines 401-437) with the worker
function of lines 481-498, as a multiset-faithful list: getProcessFunc
either builds the interval tree (discarding insert errors) or sorts the
caller's slice in place, and then every one of the concurrency workers
iterates over the whole (shared) slice, running the per-range loop of
processIntervalTree or processBinarySearch and sending each hit to the
output channel.  The collector appends channel items in arrival order,
so any actual output list is a permutation of this concatenation of the
workers' identical streams; none models a run whose per-range loop never
exits, or an unsupported algorithm name. -/
def parallelEmissions (algorithm : String) (rs : List CIDRRange) (concurrency : Nat) :
    Option (List Nat) :=
  if algorithm = "interval-tree" then
    (seqRanges (treeBody (buildIntervalTree rs).1) rs).map
      (fun l => (List.replicate concurrency l).flatten)
  else if algorithm = "binary-search" then
    (seqRanges (seqBody (sortByStart rs)) (sortByStart rs)).map
      (fun l => (List.replicate concurrency l).flatten)
  else none

/-- Pipeline of main in sequential mode: parse, then expand sequentially. -/
def runSequential (cidrList : List String) : Option (List Nat) :=
  (parseCIDRList cidrList).toOption.bind cidrToIPsBinarySearch

/-- Pipeline of main in parallel mode: parse, then expand in parallel
with the given algorithm and worker count. -/
def runParallel (cidrList : List String) (algorithm : String) (concurrency : Nat) :
    Option (List Nat) :=
  (parseCIDRList cidrList).toOption.bind (fun rs => parallelEmissions algorithm rs concurrency)

/-- State-passing view of cidrToIPsBinarySearch: the result paired with
the caller's slice after the call.  The function copies the slice
(lines 506-507) and sorts only the copy, so the caller's slice is
returned unchanged. -/
def cidrToIPsBinarySearchS (rs : List CIDRRange) : Option (List Nat) × List CIDRRange :=
  (seqRanges (seqBody (sortByStart rs)) (sortByStart rs), rs)

/-- State-passing view of getProcessFunc (main.go lines 440-451): the
selected per-range body paired with the caller's slice after the call.
The binary-search branch runs sort.Slice on the caller's slice itself,
so the slice comes back sorted; the interval-tree branch does not sort. -/
def getProcessFuncS (algorithm : String) (rs : List CIDRRange) :
    Option (Nat → List Nat) × List CIDRRange :=
  if algorithm = "interval-tree" then (some (treeBody (buildIntervalTree rs).1), rs)
  else if algorithm = "binary-search" then
    (some (seqBody (sortByStart rs)), sortByStart rs)
  else (none, rs)

/-- Disjointness of two closed ranges. -/
def RangeDisj (a b : CIDRRange) : Prop := a.stop < b.start ∨ b.stop < a.start

instance : DecidableRel RangeDisj := fun a b =>
  @instDecidableOr _ _ (Nat.decLt a.stop b.start) (Nat.decLt b.stop a.start)

/-- Pairwise non-overlapping list of ranges. -/
def DisjointRanges (rs : List CIDRRange) : Prop := List.Pairwise RangeDisj rs

/-- Well-formed ranges: ordered bounds inside the 32-bit address space. -/
def WFList (rs : List CIDRRange) : Prop := ∀ r ∈ rs, r.start ≤ r.stop ∧ r.stop < W

/-- Chained separation: each range ends strictly before the next starts. -/
def SepChain (rs : List CIDRRange) : Prop :=
  List.Pairwise (fun a b => a.stop < b.start) rs

/-- Consecutive natural numbers starting at s. -/
def natRange : Nat → Nat → List Nat
  | _, 0 => []
  | s, n + 1 => s :: natRange (s + 1) n

/-- The range that parseCIDRList builds from 0.0.0.0/0: the whole address
space, whose uint32 length field wraps to 0. -/
def sampleZeroRange : CIDRRange := ⟨⟨IPAddr.v4 0, IPAddr.v4 0⟩, 0, 4294967295, 0⟩

/-- The range that parseCIDRList builds from 10.0.0.0/30. -/
def sampleSlash30 : CIDRRange :=
  ⟨⟨IPAddr.v4 167772160, IPAddr.v4 4294967292⟩, 167772160, 167772163, 4⟩

/-- The range that parseCIDRList builds from 192.168.1.0/32. -/
def sampleSlash32 : CIDRRange :=
  ⟨⟨IPAddr.v4 3232235776, IPAddr.v4 4294967295⟩, 3232235776, 3232235776, 1⟩

/-- A sample range with the smaller start, for sort-order statements. -/
def sampleLo : CIDRRange := ⟨⟨IPAddr.v4 0, IPAddr.v4 4294967295⟩, 0, 0, 1⟩

/-- A sample range with the larger start, for sort-order statements. -/
def sampleHi : CIDRRange := ⟨⟨IPAddr.v4 5, IPAddr.v4 4294967295⟩, 5, 5, 1⟩

theorem le_lor (a b : Nat) : a ≤ a ||| b := by
  have h : a &&& (a ||| b) = a := by
    apply Nat.eq_of_testBit_eq
    intro i
    rw [Nat.testBit_and, Nat.testBit_or]
    cases a.testBit i <;> cases b.testBit i <;> rfl
  calc a = a &&& (a ||| b) := h.symm
    _ ≤ a ||| b := Nat.and_le_right

theorem octVal_le {cs : List Char} {v : Nat} (h : octVal cs = some v) : v ≤ 255 := by
  unfold octVal at h
  split at h
  · cases h
  · split at h
    · cases h
      simp_all
    · cases h

theorem ipv4Val_lt {cs : List Char} {v : Nat} (h : ipv4Val cs = some v) : v < W := by
  unfold ipv4Val at h
  split at h
  · split at h
    next a b c d ha hb hc hd =>
      cases h
      have h1 := octVal_le ha
      have h2 := octVal_le hb
      have h3 := octVal_le hc
      have h4 := octVal_le hd
      show ((a * 256 + b) * 256 + c) * 256 + d < W
      unfold W
      omega
    next => cases h
  · cases h

theorem ipToUint_v6_lt (v : Nat) : ipToUint (IPAddr.v6 v) < W := by
  have hstep : ipToUint (IPAddr.v6 v) =
      if v / 4294967296 = 65535 then v % 4294967296 else 0 := by
    show (match (if v / 4294967296 = 65535 then some (v % 4294967296) else none) with
      | none => 0
      | some w => w) = _
    by_cases h : v / 4294967296 = 65535
    · rw [if_pos h, if_pos h]
    · rw [if_neg h, if_neg h]
  rw [hstep]
  unfold W
  by_cases h : v / 4294967296 = 65535
  · rw [if_pos h]
    omega
  · rw [if_neg h]
    omega

theorem ipToUint_lt_of_parse {s : String} {ip : IPAddr} {ipn : GoIPNet}
    (h : netParseCIDR s = some (ip, ipn)) : ipToUint ip < W ∧ ipToUint ipn.mask < W := by
  unfold netParseCIDR at h
  split at h
  · split at h
    · cases h
    next n hn =>
      split at h
      · split at h
        · cases h
        next v h6 =>
          split at h
          · cases h
            exact ⟨ipToUint_v6_lt v, ipToUint_v6_lt (v6maskVal n)⟩
          · cases h
      · split at h
        · cases h
        next v h4 =>
          split at h
          · cases h
            refine ⟨ipv4Val_lt h4, ?_⟩
            show v4maskVal n < W
            unfold v4maskVal W
            have : 1 ≤ 2 ^ (32 - n) := Nat.one_le_two_pow
            omega
          · cases h
  · cases h

theorem parseCIDRList_shape :
    ∀ (lst : List String) (rs : List CIDRRange), parseCIDRList lst = Except.ok rs →
      ∀ r ∈ rs, r.start ≤ r.stop ∧ r.stop < W ∧ r.length = (r.stop - r.start + 1) % W := by
  intro lst
  induction lst with
  | nil =>
    intro rs h r hr
    cases h
    cases hr
  | cons s rest ih =>
    intro rs h r hr
    unfold parseCIDRList at h
    split at h
    · cases h
    next ip ipn hparse =>
      split at h
      · cases h
      next rs2 hrest =>
        cases h
        have hb := ipToUint_lt_of_parse hparse
        rcases List.mem_cons.1 hr with rfl | hr2
        · refine ⟨le_lor _ _, ?_, rfl⟩
          show ipToUint ip ||| (W - 1 - ipToUint ipn.mask) < W
          have h1 : ipToUint ip < 2 ^ 32 := hb.1
          have h2 : W - 1 - ipToUint ipn.mask < 2 ^ 32 := by unfold W; omega
          have := Nat.or_lt_two_pow h1 h2
          unfold W
          exact this
        · exact ih rs2 hrest r hr2

theorem length_natRange : ∀ (n s : Nat), (natRange s n).length = n
  | 0, _ => rfl
  | n + 1, s => by simp [natRange, length_natRange n (s + 1)]

theorem mem_natRange : ∀ (n s x : Nat), x ∈ natRange s n ↔ s ≤ x ∧ x < s + n
  | 0, s, x => by simp [natRange]
  | n + 1, s, x => by
    simp [natRange, mem_natRange n (s + 1) x]
    omega

theorem pairwise_natRange : ∀ (n s : Nat), (natRange s n).Pairwise (· < ·)
  | 0, _ => List.Pairwise.nil
  | n + 1, s => by
    refine List.Pairwise.cons ?_ (pairwise_natRange n (s + 1))
    intro y hy
    have := (mem_natRange n (s + 1) y).1 hy
    omega

theorem nodup_natRange (n s : Nat) : (natRange s n).Nodup :=
  (pairwise_natRange n s).imp Nat.ne_of_lt

theorem expandLoop_succ (body : Nat → List Nat) (fuel ip stop : Nat) :
    expandLoop body (fuel + 1) ip stop =
      if ip ≤ stop then
        match expandLoop body fuel ((ip + 1) % W) stop with
        | none => none
        | some rest => some (body ip ++ rest)
      else some [] := rfl

theorem expandLoop_none (body : Nat → List Nat) :
    ∀ (fuel s : Nat), s < W → expandLoop body fuel s (W - 1) = none := by
  intro fuel
  induction fuel with
  | zero => intro s _; rfl
  | succ fuel ih =>
    intro s hs
    have hle : s ≤ W - 1 := by omega
    have hmod : (s + 1) % W < W := Nat.mod_lt _ (by unfold W; omega)
    rw [expandLoop_succ, if_pos hle, ih ((s + 1) % W) hmod]

theorem expandLoop_full (body : Nat → List Nat) (e : Nat) (he : e + 1 < W) :
    ∀ (n s : Nat), e < s + n → (∀ ip, s ≤ ip → ip ≤ e → body ip = [ip]) →
      expandLoop body (n + 1) s e = some (natRange s (e + 1 - s)) := by
  intro n
  induction n with
  | zero =>
    intro s hlt _
    have hse : ¬s ≤ e := by omega
    have h0 : e + 1 - s = 0 := by omega
    simp [expandLoop, hse, h0, natRange]
  | succ n ih =>
    intro s hlt hbody
    by_cases hse : s ≤ e
    · have hmod : (s + 1) % W = s + 1 := Nat.mod_eq_of_lt (by omega)
      have hrec := ih (s + 1) (by omega) (fun ip h1 h2 => hbody ip (by omega) h2)
      have hcnt : e + 1 - s = (e + 1 - (s + 1)) + 1 := by omega
      rw [expandLoop_succ, if_pos hse, hmod, hrec, hbody s (le_refl s) hse, hcnt]
      rfl
    · have h0 : e + 1 - s = 0 := by omega
      simp [expandLoop, hse, h0, natRange]

theorem expandLoop_sub (body : Nat → List Nat) (hb : ∀ ip, body ip = [ip] ∨ body ip = [])
    (e : Nat) (he : e + 1 < W) :
    ∀ (fuel s : Nat) (l : List Nat), expandLoop body fuel s e = some l →
      l.Sublist (natRange s (e + 1 - s)) := by
  intro fuel
  induction fuel with
  | zero => intro s l h; cases h
  | succ fuel ih =>
    intro s l h
    by_cases hse : s ≤ e
    · have hmod : (s + 1) % W = s + 1 := Nat.mod_eq_of_lt (by omega)
      simp only [expandLoop, if_pos hse, hmod] at h
      cases hrec : expandLoop body fuel (s + 1) e with
      | none => rw [hrec] at h; cases h
      | some rest =>
        rw [hrec] at h
        cases h
        have hsub := ih (s + 1) rest hrec
        have hcnt : e + 1 - s = (e + 1 - (s + 1)) + 1 := by omega
        rw [hcnt]
        show (body s ++ rest).Sublist (s :: natRange (s + 1) (e + 1 - (s + 1)))
        rcases hb s with hb1 | hb1 <;> rw [hb1]
        · exact List.Sublist.cons₂ s hsub
        · exact List.Sublist.cons s hsub
    · simp only [expandLoop, if_neg hse] at h
      cases h
      exact List.nil_sublist _

theorem expandLoop_total (body : Nat → List Nat) (e : Nat) (he : e + 1 < W) :
    ∀ (n s : Nat), e < s + n → ∃ l, expandLoop body (n + 1) s e = some l := by
  intro n
  induction n with
  | zero =>
    intro s hlt
    have hse : ¬s ≤ e := by omega
    exact ⟨[], by simp [expandLoop, hse]⟩
  | succ n ih =>
    intro s hlt
    by_cases hse : s ≤ e
    · have hmod : (s + 1) % W = s + 1 := Nat.mod_eq_of_lt (by omega)
      obtain ⟨rest, hrest⟩ := ih (s + 1) (by omega)
      exact ⟨body s ++ rest, by rw [expandLoop_succ, if_pos hse, hmod, hrest]⟩
    · exact ⟨[], by simp [expandLoop, hse]⟩

theorem seqRanges_sub (body : Nat → List Nat) (hb : ∀ ip, body ip = [ip] ∨ body ip = []) :
    ∀ (lst : List CIDRRange) (l : List Nat), (∀ r ∈ lst, r.start ≤ r.stop ∧ r.stop < W) →
      seqRanges body lst = some l →
      l.Sublist ((lst.map (fun r => natRange r.start (r.stop + 1 - r.start))).flatten) := by
  intro lst
  induction lst with
  | nil =>
    intro l _ h
    cases h
    exact List.nil_sublist _
  | cons r rest ih =>
    intro l hwf h
    simp only [seqRanges] at h
    cases hrun : runRange body r with
    | none => rw [hrun] at h; cases h
    | some l1 =>
      cases hrest : seqRanges body rest with
      | none => rw [hrun, hrest] at h; cases h
      | some l2 =>
        rw [hrun, hrest] at h
        cases h
        have hwr := hwf r (List.mem_cons_self r rest)
        by_cases htop : r.stop + 1 < W
        · have h1 := expandLoop_sub body hb r.stop htop _ r.start l1 hrun
          have h2 := ih l2 (fun x hx => hwf x (List.mem_cons_of_mem r hx)) hrest
          simp only [List.map_cons, List.flatten_cons]
          exact List.Sublist.append h1 h2
        · exfalso
          have hstop : r.stop = W - 1 := by omega
          have hnone : runRange body r = none := by
            unfold runRange
            rw [hstop]
            exact expandLoop_none body _ r.start (by omega)
          rw [hnone] at hrun
          cases hrun

theorem skeleton_pairwise (lst : List CIDRRange)
    (hwf : ∀ r ∈ lst, r.start ≤ r.stop ∧ r.stop < W) (hsep : SepChain lst) :
    ((lst.map (fun r => natRange r.start (r.stop + 1 - r.start))).flatten).Pairwise (· < ·) := by
  rw [List.pairwise_flatten]
  constructor
  · intro l hl
    rw [List.mem_map] at hl
    obtain ⟨r, -, rfl⟩ := hl
    exact pairwise_natRange _ _
  · rw [List.pairwise_map]
    refine List.Pairwise.imp_of_mem ?_ hsep
    intro a b ha _ hab x hx y hy
    have hax := (mem_natRange _ _ x).1 hx
    have hby := (mem_natRange _ _ y).1 hy
    have hwa := hwf a ha
    omega

theorem searchLoop_spec (f : Nat → Bool) (n : Nat)
    (mono : ∀ a b, a ≤ b → b < n → f a = true → f b = true) :
    ∀ (fuel i j : Nat), i ≤ j → j ≤ n → j - i ≤ fuel →
      i ≤ searchLoop f fuel i j ∧ searchLoop f fuel i j ≤ j ∧
        (∀ k, i ≤ k → k < searchLoop f fuel i j → f k = false) ∧
        (searchLoop f fuel i j < j → f (searchLoop f fuel i j) = true) := by
  intro fuel
  induction fuel with
  | zero =>
    intro i j hij hjn hfuel
    have hji : i = j := by omega
    subst hji
    refine ⟨le_refl _, le_refl _, ?_, ?_⟩
    · intro k h1 h2
      exact absurd (Nat.lt_of_le_of_lt h1 h2) (Nat.lt_irrefl _)
    · intro h
      exact absurd h (Nat.lt_irrefl _)
  | succ fuel ih =>
    intro i j hij hjn hfuel
    by_cases hlt : i < j
    · have hmid1 : i ≤ (i + j) / 2 := by omega
      have hmid2 : (i + j) / 2 < j := by omega
      cases hf : f ((i + j) / 2) with
      | true =>
        obtain ⟨h1, h2, h3, h4⟩ := ih i ((i + j) / 2) hmid1 (by omega) (by omega)
        rw [show searchLoop f (fuel + 1) i j = searchLoop f fuel i ((i + j) / 2) by
          simp [searchLoop, hlt, hf]]
        refine ⟨h1, by omega, h3, ?_⟩
        intro _
        rcases Nat.lt_or_ge (searchLoop f fuel i ((i + j) / 2)) ((i + j) / 2) with hc | hc
        · exact h4 hc
        · rw [Nat.le_antisymm h2 hc]
          exact hf
      | false =>
        obtain ⟨h1, h2, h3, h4⟩ := ih ((i + j) / 2 + 1) j (by omega) hjn (by omega)
        rw [show searchLoop f (fuel + 1) i j = searchLoop f fuel ((i + j) / 2 + 1) j by
          simp [searchLoop, hlt, hf]]
        refine ⟨by omega, h2, ?_, h4⟩
        intro k hk1 hk2
        by_cases hkm : k ≤ (i + j) / 2
        · cases hfk : f k with
          | false => rfl
          | true =>
            have := mono k ((i + j) / 2) hkm (by omega) hfk
            rw [this] at hf
            cases hf
        · exact h3 k (by omega) hk2
    · have hji : i = j := by omega
      subst hji
      rw [show searchLoop f (fuel + 1) i i = i by simp [searchLoop]]
      refine ⟨le_refl _, le_refl _, ?_, ?_⟩
      · intro k h1 h2
        exact absurd (Nat.lt_of_le_of_lt h1 h2) (Nat.lt_irrefl _)
      · intro h
        exact absurd h (Nat.lt_irrefl _)

theorem sortByStart_perm (rs : List CIDRRange) : (sortByStart rs).Perm rs :=
  List.perm_insertionSort startLE rs

theorem sortByStart_sorted (rs : List CIDRRange) : List.Sorted startLE (sortByStart rs) :=
  List.sorted_insertionSort startLE rs

theorem sepChain_of_sorted (ss : List CIDRRange)
    (hwf : ∀ r ∈ ss, r.start ≤ r.stop ∧ r.stop < W)
    (hsorted : List.Sorted startLE ss) (hdisj : List.Pairwise RangeDisj ss) :
    SepChain ss := by
  have hand := List.Pairwise.and (l := ss) hsorted hdisj
  refine List.Pairwise.imp_of_mem ?_ hand
  intro a b _ hb hr
  obtain ⟨h1, h2⟩ := hr
  have h1' : a.start ≤ b.start := h1
  have hwb := hwf b hb
  rcases h2 with h2 | h2
  · exact h2
  · omega

theorem sepChain_get {ss : List CIDRRange} (hsep : SepChain ss) {a b : Nat}
    (hab : a < b) (hb : b < ss.length) :
    (ss.get ⟨a, Nat.lt_trans hab hb⟩).stop < (ss.get ⟨b, hb⟩).start :=
  List.pairwise_iff_get.1 hsep ⟨a, Nat.lt_trans hab hb⟩ ⟨b, hb⟩ hab

theorem bs_pred_mono (ss : List CIDRRange) (x : Nat)
    (hwf : ∀ r ∈ ss, r.start ≤ r.stop ∧ r.stop < W) (hsep : SepChain ss) :
    ∀ a b, a ≤ b → b < ss.length →
      decide (x ≤ (ss.getD a default).stop) = true →
      decide (x ≤ (ss.getD b default).stop) = true := by
  intro a b hab hb ha
  rcases Nat.eq_or_lt_of_le hab with rfl | hlt
  · exact ha
  · have hga : a < ss.length := Nat.lt_trans hlt hb
    rw [List.getD_eq_get ss default hga, decide_eq_true_eq] at ha
    rw [List.getD_eq_get ss default hb, decide_eq_true_eq]
    have hsep2 := sepChain_get hsep hlt hb
    have hwb := hwf _ (List.get_mem ss b hb)
    omega

theorem bsLookup_eq_some (ss : List CIDRRange) (x : Nat) (r : CIDRRange)
    (hwf : ∀ q ∈ ss, q.start ≤ q.stop ∧ q.stop < W) (hsep : SepChain ss)
    (hr : r ∈ ss) (h1 : r.start ≤ x) (h2 : x ≤ r.stop) :
    bsLookup ss x = some r := by
  obtain ⟨⟨k, hk⟩, hget⟩ := List.mem_iff_get.1 hr
  obtain ⟨-, hle, hpre, hat⟩ :=
    searchLoop_spec (fun j => decide (x ≤ (ss.getD j default).stop)) ss.length
      (bs_pred_mono ss x hwf hsep) ss.length 0 ss.length (Nat.zero_le _) (le_refl _)
      (by omega)
  have hpredk : decide (x ≤ (ss.getD k default).stop) = true := by
    rw [List.getD_eq_get ss default hk, hget, decide_eq_true_eq]
    exact h2
  have hprefalse : ∀ j, j < k → decide (x ≤ (ss.getD j default).stop) = false := by
    intro j hj
    rw [List.getD_eq_get ss default (Nat.lt_trans hj hk), decide_eq_false_iff_not]
    intro hxj
    have hsepj := sepChain_get hsep hj hk
    rw [hget] at hsepj
    omega
  have hidxk :
      searchLoop (fun j => decide (x ≤ (ss.getD j default).stop)) ss.length 0 ss.length = k := by
    by_contra hne
    rcases Nat.lt_or_ge
        (searchLoop (fun j => decide (x ≤ (ss.getD j default).stop)) ss.length 0 ss.length) k
      with hl | hg
    · have htrue := hat (by omega)
      rw [hprefalse _ hl] at htrue
      cases htrue
    · have hgt : k < searchLoop (fun j => decide (x ≤ (ss.getD j default).stop))
          ss.length 0 ss.length := by omega
      have hfalse := hpre k (Nat.zero_le _) hgt
      rw [hpredk] at hfalse
      cases hfalse
  unfold bsLookup sortSearch
  simp only [hidxk]
  rw [dif_pos hk, hget, if_pos h1]

theorem bsLookup_eq_none (ss : List CIDRRange) (x : Nat)
    (hwf : ∀ q ∈ ss, q.start ≤ q.stop ∧ q.stop < W) (hsep : SepChain ss)
    (hnone : ∀ r ∈ ss, ¬(r.start ≤ x ∧ x ≤ r.stop)) :
    bsLookup ss x = none := by
  obtain ⟨-, hle, hpre, hat⟩ :=
    searchLoop_spec (fun j => decide (x ≤ (ss.getD j default).stop)) ss.length
      (bs_pred_mono ss x hwf hsep) ss.length 0 ss.length (Nat.zero_le _) (le_refl _)
      (by omega)
  unfold bsLookup sortSearch
  by_cases hidx : searchLoop (fun j => decide (x ≤ (ss.getD j default).stop))
      ss.length 0 ss.length < ss.length
  · rw [dif_pos hidx]
    have htrue := hat hidx
    rw [List.getD_eq_get ss default hidx, decide_eq_true_eq] at htrue
    have hmem := List.get_mem ss _ hidx
    have hni := hnone _ hmem
    rw [if_neg (fun hc => hni ⟨hc, htrue⟩)]
  · rw [dif_neg hidx]

theorem inv_node {l r : ITree} {ns ne : Nat} {nc : CIDRRange}
    (h : (ITree.node l ns ne nc r).Inv) :
    ns ≤ ne ∧ l.Inv ∧ r.Inv ∧ (∀ p ∈ l.toL, p.2.1 < ns) ∧ (∀ p ∈ r.toL, ne < p.1) := h

theorem searchT_of_mem (x : Nat) :
    ∀ (t : ITree), t.Inv → ∀ (s e : Nat) (c : CIDRRange), (s, e, c) ∈ t.toL →
      s ≤ x → x ≤ e → t.searchT x = some c := by
  intro t
  induction t with
  | nil =>
    intro _ s e c hm
    cases hm
  | node l ns ne nc r ihl ihr =>
    intro hInv s e c hm h1 h2
    obtain ⟨hse, hl, hr, hLb, hRb⟩ := inv_node hInv
    simp only [ITree.toL, List.mem_append, List.mem_cons] at hm
    rcases hm with hm | hm | hm
    · have hlt : e < ns := hLb (s, e, c) hm
      rw [show ITree.searchT (ITree.node l ns ne nc r) x = l.searchT x by
        simp [ITree.searchT, show x < ns by omega]]
      exact ihl hl s e c hm h1 h2
    · cases hm
      simp [ITree.searchT, show ¬x < ns by omega, show ¬ne < x by omega]
    · have hlt : ne < s := hRb (s, e, c) hm
      rw [show ITree.searchT (ITree.node l ns ne nc r) x = r.searchT x by
        simp [ITree.searchT, show ¬x < ns by omega, show ne < x by omega]]
      exact ihr hr s e c hm h1 h2

theorem searchT_some (x : Nat) :
    ∀ (t : ITree) (c : CIDRRange), t.searchT x = some c →
      ∃ s e, (s, e, c) ∈ t.toL ∧ s ≤ x ∧ x ≤ e := by
  intro t
  induction t with
  | nil => intro c h; cases h
  | node l ns ne nc r ihl ihr =>
    intro c h
    simp only [ITree.searchT] at h
    by_cases h1 : x < ns
    · rw [if_pos h1] at h
      obtain ⟨s, e, hm, hs1, hs2⟩ := ihl c h
      exact ⟨s, e, by simp only [ITree.toL, List.mem_append]; exact Or.inl hm, hs1, hs2⟩
    · rw [if_neg h1] at h
      by_cases h2 : ne < x
      · rw [if_pos h2] at h
        obtain ⟨s, e, hm, hs1, hs2⟩ := ihr c h
        refine ⟨s, e, ?_, hs1, hs2⟩
        simp only [ITree.toL, List.mem_append, List.mem_cons]
        exact Or.inr (Or.inr hm)
      · rw [if_neg h2] at h
        cases h
        exact ⟨ns, ne, by simp [ITree.toL], by omega, by omega⟩

theorem insertT_ok (c : CIDRRange) :
    ∀ (t : ITree) (s e : Nat), t.Inv → s ≤ e → (∀ p ∈ t.toL, p.2.1 < s ∨ e < p.1) →
      ∃ t2, t.insertT s e c = Except.ok t2 ∧ t2.Inv ∧ t2.toL.Perm ((s, e, c) :: t.toL) := by
  intro t
  induction t with
  | nil =>
    intro s e _ hse _
    refine ⟨ITree.node ITree.nil s e c ITree.nil, rfl, ?_, ?_⟩
    · show s ≤ e ∧ ITree.Inv ITree.nil ∧ ITree.Inv ITree.nil ∧
        (∀ p ∈ ITree.toL ITree.nil, p.2.1 < s) ∧ (∀ p ∈ ITree.toL ITree.nil, e < p.1)
      exact ⟨hse, trivial, trivial, fun p hp => absurd hp (List.not_mem_nil p),
        fun p hp => absurd hp (List.not_mem_nil p)⟩
    · simp [ITree.toL]
  | node l ns ne nc r ihl ihr =>
    intro s e hInv hse hd
    obtain ⟨hnn, hl, hr, hLb, hRb⟩ := inv_node hInv
    have hroot : ne < s ∨ e < ns := by
      have := hd (ns, ne, nc) (by simp [ITree.toL])
      tauto
    by_cases hcase : e < ns
    · obtain ⟨l2, hok, hinv2, hperm2⟩ := ihl s e hl hse (fun p hp =>
        hd p (by simp only [ITree.toL, List.mem_append]; exact Or.inl hp))
      refine ⟨ITree.node l2 ns ne nc r, ?_, ?_, ?_⟩
      · simp only [ITree.insertT, if_pos hcase, hok]
      · refine ⟨hnn, hinv2, hr, ?_, hRb⟩
        intro p hp
        rcases List.mem_cons.1 ((hperm2.mem_iff).1 hp) with hp2 | hp2
        · cases hp2; exact hcase
        · exact hLb p hp2
      · exact hperm2.append_right ((ns, ne, nc) :: r.toL)
    · have hcase2 : ne < s := by tauto
      obtain ⟨r2, hok, hinv2, hperm2⟩ := ihr s e hr hse (fun p hp =>
        hd p (by simp only [ITree.toL, List.mem_append, List.mem_cons]; exact Or.inr (Or.inr hp)))
      refine ⟨ITree.node l ns ne nc r2, ?_, ?_, ?_⟩
      · simp only [ITree.insertT, if_neg hcase, if_pos hcase2, hok]
      · refine ⟨hnn, hl, hinv2, hLb, ?_⟩
        intro p hp
        rcases List.mem_cons.1 ((hperm2.mem_iff).1 hp) with hp2 | hp2
        · cases hp2; exact hcase2
        · exact hRb p hp2
      · have hstep1 : ((ns, ne, nc) :: r2.toL).Perm ((ns, ne, nc) :: (s, e, c) :: r.toL) :=
          List.Perm.cons _ hperm2
        have hstep2 : ((ns, ne, nc) :: (s, e, c) :: r.toL).Perm
            ((s, e, c) :: (ns, ne, nc) :: r.toL) := List.Perm.swap _ _ _
        have hstep3 := List.Perm.append_left l.toL (hstep1.trans hstep2)
        exact hstep3.trans List.perm_middle

theorem buildGo_spec :
    ∀ (rs : List CIDRRange) (t : ITree) (errs : List String), t.Inv →
      (∀ r ∈ rs, r.start ≤ r.stop) → List.Pairwise RangeDisj rs →
      (∀ r ∈ rs, ∀ p ∈ t.toL, p.2.1 < r.start ∨ r.stop < p.1) →
      ∃ t2, buildIntervalTreeGo rs t errs = (t2, errs) ∧ t2.Inv ∧
        t2.toL.Perm ((rs.map (fun r => (r.start, r.stop, r))) ++ t.toL) := by
  intro rs
  induction rs with
  | nil =>
    intro t errs hInv _ _ _
    exact ⟨t, rfl, hInv, by simp⟩
  | cons c rest ih =>
    intro t errs hInv hwf hdisj hd
    obtain ⟨hhead, htail⟩ := List.pairwise_cons.1 hdisj
    obtain ⟨t1, hok, hinv1, hperm1⟩ :=
      insertT_ok c t c.start c.stop hInv (hwf c (List.mem_cons_self c rest))
        (hd c (List.mem_cons_self c rest))
    obtain ⟨t2, hgo, hinv2, hperm2⟩ := ih t1 errs hinv1
      (fun r hr => hwf r (List.mem_cons_of_mem c hr)) htail
      (by
        intro r hr p hp
        rcases List.mem_cons.1 ((hperm1.mem_iff).1 hp) with hp2 | hp2
        · cases hp2
          have := hhead r hr
          unfold RangeDisj at this
          tauto
        · exact hd r (List.mem_cons_of_mem c hr) p hp2)
    refine ⟨t2, ?_, hinv2, ?_⟩
    · simp only [buildIntervalTreeGo, hok, hgo]
    · have hstep1 := List.Perm.append_left (rest.map (fun r => (r.start, r.stop, r))) hperm1
      exact (hperm2.trans hstep1).trans List.perm_middle

theorem buildIntervalTree_spec (rs : List CIDRRange) (hwf : ∀ r ∈ rs, r.start ≤ r.stop)
    (hdisj : List.Pairwise RangeDisj rs) :
    ∃ t2, buildIntervalTree rs = (t2, []) ∧ t2.Inv ∧
      t2.toL.Perm (rs.map (fun r => (r.start, r.stop, r))) := by
  obtain ⟨t2, h1, h2, h3⟩ := buildGo_spec rs ITree.nil [] trivial hwf hdisj
    (by intro r _ p hp; cases hp)
  exact ⟨t2, h1, h2, by simpa [ITree.toL] using h3⟩

theorem sortByStart_singleton (r : CIDRRange) : sortByStart [r] = [r] := rfl

theorem seqRanges_cons_none (body : Nat → List Nat) (r : CIDRRange) (rest : List CIDRRange)
    (h : runRange body r = none) : seqRanges body (r :: rest) = none := by
  unfold seqRanges
  rw [h]

instance (rs : List CIDRRange) : Decidable (DisjointRanges rs) :=
  List.instDecidablePairwise rs

instance (rs : List CIDRRange) : Decidable (WFList rs) :=
  List.decidableBAll _ rs

/-- C1: the claim says parallel expansion yields the same multiset of addresses as
sequential expansion for every concurrency level.  In the code every worker iterates
over the entire range slice, so with concurrency 2 each address of 10.0.0.0/30 is
emitted twice while the sequential expansion emits it once: the parallel multiset is
the concurrency-fold repetition of the sequential one, matching only at
concurrency 1. -/
theorem c1_parallel_duplicates :
    (runSequential ["10.0.0.0/30"]).map (fun l => l.count 167772160) = some 1 ∧
      (runParallel ["10.0.0.0/30"] "binary-search" 2).map (fun l => l.count 167772160) =
        some 2 ∧
      (runParallel ["10.0.0.0/30"] "binary-search" 1).map (fun l => l.count 167772160) =
        some 1 :=
  ⟨rfl, rfl, rfl⟩

/-- C2 (amended): for every valid CIDR block whose derived end value is below
2^32 - 1, the length field built by parseCIDRList equals end - start + 1 and
sequential expansion emits exactly length addresses for that block, without
duplicates; a /32 block yields exactly one address (see the witness). -/
theorem c2_block_length (s : String) (r : CIDRRange)
    (hp : parseCIDRList [s] = Except.ok [r]) (htop : r.stop + 1 < W) :
    r.length = r.stop - r.start + 1 ∧
      ∃ l, cidrToIPsBinarySearch [r] = some l ∧ l.length = r.length ∧ l.Nodup := by
  obtain ⟨h1, h2, h3⟩ := parseCIDRList_shape [s] [r] hp r (List.mem_cons_self r [])
  have hlen : r.length = r.stop - r.start + 1 := by
    rw [h3, Nat.mod_eq_of_lt (by omega)]
  refine ⟨hlen, ?_⟩
  have hwf1 : ∀ q ∈ [r], q.start ≤ q.stop ∧ q.stop < W := by
    intro q hq
    rcases List.mem_cons.1 hq with rfl | hq2
    · exact ⟨h1, h2⟩
    · cases hq2
  have hsep1 : SepChain [r] :=
    List.Pairwise.cons (fun y hy => absurd hy (List.not_mem_nil y)) List.Pairwise.nil
  have hbody : ∀ ip, r.start ≤ ip → ip ≤ r.stop → seqBody [r] ip = [ip] := by
    intro ip hip1 hip2
    unfold seqBody
    rw [bsLookup_eq_some [r] ip r hwf1 hsep1 (List.mem_cons_self r []) hip1 hip2]
  have hfull := expandLoop_full (seqBody [r]) r.stop (by omega) (r.stop - r.start + 1)
    r.start (by omega) hbody
  have hrun : runRange (seqBody [r]) r = some (natRange r.start (r.stop + 1 - r.start)) :=
    hfull
  refine ⟨natRange r.start (r.stop + 1 - r.start), ?_, ?_, nodup_natRange _ _⟩
  · unfold cidrToIPsBinarySearch
    rw [sortByStart_singleton]
    simp only [seqRanges, hrun]
    rw [List.append_nil]
  · rw [length_natRange, hlen]
    omega

/-- C2 (counterexample): the valid CIDR block 0.0.0.0/0 parses to the range
[0, 2^32 - 1] whose uint32 length field wraps to 0, which is not
end - start + 1 = 2^32; moreover its per-address loop never exits, so the
sequential expansion produces no list at all. -/
theorem c2_block_length_counterexample :
    parseCIDRList ["0.0.0.0/0"] = Except.ok [sampleZeroRange] ∧
      sampleZeroRange.length ≠ sampleZeroRange.stop - sampleZeroRange.start + 1 ∧
      cidrToIPsBinarySearch [sampleZeroRange] = none := by
  refine ⟨rfl, by decide, ?_⟩
  have hnone : runRange (seqBody [sampleZeroRange]) sampleZeroRange = none :=
    expandLoop_none (seqBody [sampleZeroRange]) (4294967295 - 0 + 2) 0 (by decide)
  unfold cidrToIPsBinarySearch
  rw [sortByStart_singleton]
  exact seqRanges_cons_none _ _ _ hnone

/-- C2 (witness): the /32 block 192.168.1.0/32 satisfies the hypotheses and
yields length 1. -/
theorem c2_block_length_witness :
    parseCIDRList ["192.168.1.0/32"] = Except.ok [sampleSlash32] ∧
      sampleSlash32.stop + 1 < W ∧
      (sampleSlash32.length = sampleSlash32.stop - sampleSlash32.start + 1 ∧
        ∃ l, cidrToIPsBinarySearch [sampleSlash32] = some l ∧
          l.length = sampleSlash32.length ∧ l.Nodup) :=
  ⟨rfl, by decide, c2_block_length "192.168.1.0/32" sampleSlash32 rfl (by decide)⟩

/-- C3: the claim says overlapping input with the interval-tree algorithm fails at
construction with an overlap error naming both intervals and produces no
addresses.  The insert method does produce exactly that error, but
buildIntervalTree only prints it and keeps going: for 10.0.0.0/24 with
10.0.0.128/25 the run continues and a single worker emits 384 addresses (the
128 addresses of the rejected range are enumerated again against the first
range's tree node). -/
theorem c3_overlap_not_fatal :
    (parseCIDRList ["10.0.0.0/24", "10.0.0.128/25"]).toOption.map
        (fun rs => (buildIntervalTree rs).2) =
      some ["Failed to insert CIDR range into interval tree: overlapping intervals are not supported: [167772288, 167772415] overlaps with [167772160, 167772415]"] ∧
      (runParallel ["10.0.0.0/24", "10.0.0.128/25"] "interval-tree" 1).map List.length =
        some 384 :=
  ⟨rfl, rfl⟩

/-- C4: for every set of pairwise non-overlapping well-formed ranges and every
address, the binary-search lookup over the start-sorted array and the
interval-tree lookup over the tree built from the ranges return the same
membership answer: the same containing range, or none. -/
theorem c4_lookup_equivalence (rs : List CIDRRange) (hdisj : DisjointRanges rs)
    (hwf : WFList rs) (x : Nat) :
    bsLookup (sortByStart rs) x = ITree.searchT (buildIntervalTree rs).1 x := by
  have hperm := sortByStart_perm rs
  have hwfs : ∀ r ∈ sortByStart rs, r.start ≤ r.stop ∧ r.stop < W :=
    fun r hr => hwf r (hperm.subset hr)
  have hdisj2 : List.Pairwise RangeDisj (sortByStart rs) :=
    (List.Perm.pairwise_iff (fun h => Or.symm h) hperm).2 hdisj
  have hsep := sepChain_of_sorted _ hwfs (sortByStart_sorted rs) hdisj2
  obtain ⟨t2, hbuild, hinv, htl⟩ := buildIntervalTree_spec rs (fun r hr => (hwf r hr).1) hdisj
  rw [hbuild]
  show bsLookup (sortByStart rs) x = t2.searchT x
  by_cases hex : ∃ r ∈ rs, r.start ≤ x ∧ x ≤ r.stop
  · obtain ⟨r, hrm, h1, h2⟩ := hex
    rw [bsLookup_eq_some (sortByStart rs) x r hwfs hsep (hperm.mem_iff.2 hrm) h1 h2]
    have hmem : (r.start, r.stop, r) ∈ t2.toL :=
      htl.mem_iff.2 (List.mem_map.2 ⟨r, hrm, rfl⟩)
    exact (searchT_of_mem x t2 hinv r.start r.stop r hmem h1 h2).symm
  · rw [bsLookup_eq_none (sortByStart rs) x hwfs hsep
      (fun r hr hc => hex ⟨r, hperm.subset hr, hc⟩)]
    cases hs : t2.searchT x with
    | none => rfl
    | some c =>
      obtain ⟨s, e, hm, hs1, hs2⟩ := searchT_some x t2 c hs
      obtain ⟨r, hrm, heq⟩ := List.mem_map.1 (htl.subset hm)
      obtain ⟨hsa, hsb, hsc⟩ : r.start = s ∧ r.stop = e ∧ r = c := by
        simpa [Prod.ext_iff] using heq
      subst hsa
      subst hsb
      exact absurd ⟨r, hrm, hs1, hs2⟩ hex

/-- C4 (witness): two disjoint concrete ranges and a concrete address on which
both lookups agree. -/
theorem c4_lookup_equivalence_witness :
    DisjointRanges [sampleHi, sampleLo] ∧ WFList [sampleHi, sampleLo] ∧
      bsLookup (sortByStart [sampleHi, sampleLo]) 5 =
        ITree.searchT (buildIntervalTree [sampleHi, sampleLo]).1 5 :=
  ⟨by decide, by decide, c4_lookup_equivalence [sampleHi, sampleLo] (by decide) (by decide) 5⟩

/-- C6: for every set of pairwise non-overlapping well-formed ranges, any list
produced by sequential expansion is strictly ascending, and the concrete input
10.0.0.0/30 yields exactly 10.0.0.0, 10.0.0.1, 10.0.0.2, 10.0.0.3 in that
order. -/
theorem c6_sequential_ascending (rs : List CIDRRange) (hdisj : DisjointRanges rs)
    (hwf : WFList rs) :
    (∀ l, cidrToIPsBinarySearch rs = some l → l.Pairwise (· < ·)) ∧
      runSequential ["10.0.0.0/30"] = some [167772160, 167772161, 167772162, 167772163] ∧
      (runSequential ["10.0.0.0/30"]).map (fun l => l.map ipDotted) =
        some ["10.0.0.0", "10.0.0.1", "10.0.0.2", "10.0.0.3"] := by
  refine ⟨?_, rfl, rfl⟩
  intro l hl
  have hperm := sortByStart_perm rs
  have hwfs : ∀ r ∈ sortByStart rs, r.start ≤ r.stop ∧ r.stop < W :=
    fun r hr => hwf r (hperm.subset hr)
  have hdisj2 : List.Pairwise RangeDisj (sortByStart rs) :=
    (List.Perm.pairwise_iff (fun h => Or.symm h) hperm).2 hdisj
  have hsep := sepChain_of_sorted _ hwfs (sortByStart_sorted rs) hdisj2
  have hb : ∀ ip, seqBody (sortByStart rs) ip = [ip] ∨ seqBody (sortByStart rs) ip = [] := by
    intro ip
    unfold seqBody
    cases bsLookup (sortByStart rs) ip
    · exact Or.inr rfl
    · exact Or.inl rfl
  unfold cidrToIPsBinarySearch at hl
  have hsub := seqRanges_sub _ hb (sortByStart rs) l hwfs hl
  exact List.Pairwise.sublist hsub (skeleton_pairwise _ hwfs hsep)

/-- C6 (witness): the hypotheses hold for the parsed input 10.0.0.0/30 and the
produced list is strictly ascending. -/
theorem c6_sequential_ascending_witness :
    DisjointRanges [sampleSlash30] ∧ WFList [sampleSlash30] ∧
      ([167772160, 167772161, 167772162, 167772163] : List Nat).Pairwise (· < ·) :=
  ⟨by decide, by decide,
    (c6_sequential_ascending [sampleSlash30] (by decide) (by decide)).1
      [167772160, 167772161, 167772162, 167772163] rfl⟩

/-- C7: for every input list containing a malformed CIDR string, parseCIDRList
fails on the first such string with an error message that contains the exact
offending string, and returns no ranges at all. -/
theorem c7_parse_failfast (l : List String) (h : ∃ s ∈ l, netParseCIDR s = none) :
    ∃ s ∈ l, netParseCIDR s = none ∧
      parseCIDRList l = Except.error
        ("error parsing CIDR " ++ s ++ ": invalid CIDR address: " ++ s) ∧
      ∀ rs, parseCIDRList l ≠ Except.ok rs := by
  induction l with
  | nil =>
    obtain ⟨s, hs, -⟩ := h
    cases hs
  | cons a rest ih =>
    cases hpa : netParseCIDR a with
    | none =>
      refine ⟨a, List.mem_cons_self a rest, hpa, ?_, ?_⟩
      · simp only [parseCIDRList, hpa]
      · intro rs hok
        simp only [parseCIDRList, hpa] at hok
        exact Except.noConfusion hok
    | some p =>
      have h2 : ∃ s ∈ rest, netParseCIDR s = none := by
        obtain ⟨s, hs, hnone⟩ := h
        rcases List.mem_cons.1 hs with rfl | hs2
        · rw [hpa] at hnone; cases hnone
        · exact ⟨s, hs2, hnone⟩
      obtain ⟨s, hs, hnone, herr, -⟩ := ih h2
      obtain ⟨ip, ipn⟩ := p
      refine ⟨s, List.mem_cons_of_mem a hs, hnone, ?_, ?_⟩
      · simp only [parseCIDRList, hpa, herr]
      · intro rs hok
        simp only [parseCIDRList, hpa, herr] at hok
        exact Except.noConfusion hok

/-- C7 (witness): the list containing only the malformed string 10.0.0.0/33
satisfies the hypothesis and the conclusion holds for it. -/
theorem c7_parse_failfast_witness :
    (∃ s ∈ ["10.0.0.0/33"], netParseCIDR s = none) ∧
      (∃ s ∈ ["10.0.0.0/33"], netParseCIDR s = none ∧
        parseCIDRList ["10.0.0.0/33"] = Except.error
          ("error parsing CIDR " ++ s ++ ": invalid CIDR address: " ++ s) ∧
        ∀ rs, parseCIDRList ["10.0.0.0/33"] ≠ Except.ok rs) :=
  ⟨by decide, c7_parse_failfast ["10.0.0.0/33"] (by decide)⟩

/-- C8: the per-address loop of the expansion paths terminates for every range
whose end is below 2^32 - 1, and for a range ending at 2^32 - 1 (as produced by
the CIDR 0.0.0.0/0) the wrapped uint32 counter keeps the loop condition true
forever, so the loop never exits (no fuel suffices). -/
theorem c8_loop_termination (body : Nat → List Nat) (s e : Nat) (hs : s < W) :
    (e + 1 < W → ∃ l, expandLoop body (e - s + 2) s e = some l) ∧
      (e = W - 1 → ∀ fuel, expandLoop body fuel s e = none) ∧
      parseCIDRList ["0.0.0.0/0"] = Except.ok [sampleZeroRange] ∧
      sampleZeroRange.stop = W - 1 := by
  refine ⟨?_, ?_, rfl, by decide⟩
  · intro he
    exact expandLoop_total body e he (e - s + 1) s (by omega)
  · intro he fuel
    subst he
    exact expandLoop_none body fuel s hs

/-- C8 (witness): at start 0 the hypothesis holds; for end 3 the loop
terminates with some result. -/
theorem c8_loop_termination_witness :
    (0 : Nat) < W ∧ (3 + 1 < W → ∃ l, expandLoop (fun _ => []) (3 - 0 + 2) 0 3 = some l) :=
  ⟨by decide, (c8_loop_termination (fun _ => []) 0 3 (by decide)).1⟩

/-- C9: parseCIDRList does not reject IPv6 input: 2001:db8::/32 parses, To4
fails on the 16-byte address so ipToUint yields 0, and the produced CIDRRange
has start 0 (and end 2^32 - 1, length wrapped to 0) instead of an error. -/
theorem c9_ipv6_accepted :
    parseCIDRList ["2001:db8::/32"] = Except.ok
      [⟨⟨IPAddr.v6 (0x20010db8 * 2 ^ 96), IPAddr.v6 (v6maskVal 32)⟩, 0, 4294967295, 0⟩] ∧
      ipToUint (IPAddr.v6 (0x20010db8 * 2 ^ 96)) = 0 :=
  ⟨rfl, rfl⟩

/-- C10: sequential expansion leaves the caller's slice unchanged (it sorts a
copy), while the parallel path's getProcessFunc with the binary-search
algorithm sorts the caller's slice in place, observably reordering it. -/
theorem c10_sequential_preserves_slice :
    (∀ rs, (cidrToIPsBinarySearchS rs).2 = rs) ∧
      (∀ rs, (getProcessFuncS "binary-search" rs).2 = sortByStart rs) ∧
      (getProcessFuncS "binary-search" [sampleHi, sampleLo]).2 = [sampleLo, sampleHi] ∧
      [sampleLo, sampleHi] ≠ [sampleHi, sampleLo] :=
  ⟨fun _ => rfl, fun _ => rfl, rfl, by decide⟩

/-- C5: the claim says parseCIDRList clears host bits (start = base and mask).
The refactored parseCIDRList takes start from the unmasked parsed address, so
10.0.0.1/30 yields start 167772161 (10.0.0.1) although the masked base stored
in the ipNet field is 167772160 (10.0.0.0). -/
theorem c5_start_not_masked :
    parseCIDRList ["10.0.0.1/30"] = Except.ok
      [⟨⟨IPAddr.v4 167772160, IPAddr.v4 4294967292⟩, 167772161, 167772163, 3⟩] ∧
      (167772161 : Nat) ≠ 167772160 :=
  ⟨rfl, by decide⟩

end CIDRSensei
